import Mathlib

/-!
Verification development for a quantum-circuit construction toolkit
(`cirq.circuits.circuit` and `cirq.ops.eigen_gate` / `cirq.ops.common_gates`).

The Python source is shallowly embedded:
* Python floats are modelled as exact rationals (`ℚ`); every number actually
  computed by the claims is produced exactly by float arithmetic, so the
  rational model is faithful at those points.
* Python exceptions are modelled with `Except PyErr`.
* Python lists are Lean lists; negative/clamping index behaviour of
  `list.insert` is reproduced explicitly.
-/

/-- The Python exception kinds signalled by the embedded code. -/
inductive PyErr where
  | indexError
  | valueError
  | typeError
  deriving DecidableEq, Repr

/-- Floor of a rational, written with primitive integer division so that it
reduces inside the kernel. -/
def ratFloor (q : ℚ) : ℤ := Int.fdiv q.num (q.den : ℤ)

/-- Absolute value of a rational, written so that it reduces in the kernel. -/
def ratAbs (q : ℚ) : ℚ := if q < 0 then -q else q

/-- Embeds `np.round` on scalars: round half to even (banker's rounding). -/
def npRound (q : ℚ) : ℤ :=
  let f : ℤ := ratFloor q
  let r : ℚ := q - (f : ℚ)
  if r < 1/2 then f
  else if 1/2 < r then f + 1
  else if f % 2 = 0 then f else f + 1

/-- Embeds `eigen_gate._lcm`: `t = t * r // fractions.gcd(t, r)` folded over
the values, starting from 1.  `//` is Python floor division (`Int.fdiv`). -/
def pyLcm (vals : List ℤ) : ℤ :=
  vals.foldl (fun t r => Int.fdiv (t * r) (Int.gcd t r)) 1

/-- Embeds `eigen_gate._common_rational_period`.  `fractions.Fraction`
normalizes like `mkRat`.  (The source asserts the list is non-empty; both
callers in the source check emptiness first.) -/
def commonRationalPeriod (rationalPeriods : List ℚ) : ℚ :=
  let commonDenom : ℤ := pyLcm (rationalPeriods.map (fun p => (p.den : ℤ)))
  let intPeriods : List ℤ :=
    rationalPeriods.map (fun p => Int.fdiv (p.num * commonDenom) (p.den : ℤ))
  let intCommonPeriod : ℤ := pyLcm intPeriods
  (intCommonPeriod : ℚ) / (commonDenom : ℚ)

/-- Embeds `eigen_gate._approximate_common_period`.  The source's default
arguments are `approx_denom=60`, `reject_atol=1e-8`; call sites below pass
them explicitly.  `None` is `Option.none`. -/
def approximateCommonPeriod (periods : List ℚ) (approxDenom : ℤ)
    (rejectAtol : ℚ) : Option ℚ :=
  if periods = [] then none
  else if periods.any (fun e => e == 0) then none
  else
    let approxRationalPeriods : List ℚ :=
      periods.map (fun p => ((npRound (p * approxDenom) : ℚ)) / (approxDenom : ℚ))
    let common : ℚ := commonRationalPeriod approxRationalPeriods
    if periods.any (fun p =>
        decide (p ≠ 0) &&
        decide (ratAbs (p * ((npRound (common / p) : ℤ) : ℚ) - common) > rejectAtol))
    then none
    else some common

/-- C8: `_approximate_common_period([2.0, 4.0])` returns `4.0` and
`_approximate_common_period([])` returns `None` (the "no period" marker),
at the source's default arguments `approx_denom=60`, `reject_atol=1e-8`. -/
theorem approximateCommonPeriod_examples :
    approximateCommonPeriod [2, 4] 60 (1/100000000) = some 4 ∧
    approximateCommonPeriod [] 60 (1/100000000) = none := by
  constructor
  · with_unfolding_all decide
  · with_unfolding_all decide

/-- C10: on every non-empty period list containing a zero entry,
`_approximate_common_period` returns the "no period" marker `None`
(for every choice of `approx_denom` and `reject_atol`), rather than
attempting a rational approximation or raising an error. -/
theorem approximateCommonPeriod_zero_entry (ps : List ℚ) (d : ℤ) (a : ℚ)
    (h1 : ps ≠ []) (h2 : (0 : ℚ) ∈ ps) :
    approximateCommonPeriod ps d a = none := by
  unfold approximateCommonPeriod
  rw [if_neg h1, if_pos]
  exact List.any_eq_true.mpr ⟨0, h2, by simp⟩

/-- Closed witness for the C10 theorem at the concrete input `[2, 0]` with
the source's default arguments. -/
theorem approximateCommonPeriod_zero_entry_witness :
    approximateCommonPeriod [2, 0] 60 (1/100000000) = none :=
  approximateCommonPeriod_zero_entry [2, 0] 60 (1/100000000)
    (by decide) (by with_unfolding_all decide)

/-! ### EigenGate (`cirq.ops.eigen_gate`) -/

/-- Modelled from the spec: `Symbol`/`ParameterizedValue` becomes a tagged
union `\x7bLiteral(float), Named(string)\x7d`; an `EigenGate` exponent is either a
resolved rational or an unresolved named symbol. -/
inductive ExpVal where
  | num (v : ℚ)
  | sym (name : String)
  deriving DecidableEq, Repr

/-- Embeds the state of `EigenGate.__init__` plus the data returned by the
abstract `_eigen_components` method: a list of
`(eigenvalue_exponent_factor, eigenspace_projector)` pairs.  The projector
matrices (`np.ndarray`) are row-major rational matrices.  Because
`_eigen_components` is determined by the concrete subclass, the `components`
field also stands in for `type(self)` in the identity tuple below. -/
structure EigenGateData where
  exponent : ExpVal
  globalShift : ℚ
  components : List (ℚ × List (List ℚ))
  deriving DecidableEq, Repr

/-- Embeds `EigenGate._with_exponent`: same kind of gate (same eigen
components and global shift), different exponent. -/
def withExponent (g : EigenGateData) (e : ExpVal) : EigenGateData :=
  { g with exponent := e }

/-- Embeds `EigenGate._period`: shift the eigen-component angles by the
global shift, drop zeros, take `abs(2/e)` of the rest, and feed them to
`_approximate_common_period` with its default arguments. -/
def periodOf (g : EigenGateData) : Option ℚ :=
  approximateCommonPeriod
    (((g.components.map (fun c => c.1 + g.globalShift)).filter
        (fun e => decide (e ≠ 0))).map (fun e => ratAbs (2 / e)))
    60 (1/100000000)

/-- Python's `%` on floats with a positive modulus: `x - p * floor(x / p)`. -/
def pyFloatMod (x p : ℚ) : ℚ := x - p * (ratFloor (x / p) : ℚ)

/-- Embeds the `EigenGate._canonical_exponent` property: if the detected
period is `None` or `0.0` (both falsy in `not period`), or the exponent is
symbolic, keep the raw exponent; otherwise reduce it modulo the period. -/
def canonicalExponent (g : EigenGateData) : ExpVal :=
  match periodOf g with
  | none => g.exponent
  | some p =>
    if p = 0 then g.exponent
    else
      match g.exponent with
      | .sym s => .sym s
      | .num v => .num (pyFloatMod v p)

/-- Embeds `EigenGate._identity_tuple`: `(type(self), canonical exponent,
global shift)`, with the eigen-component list standing in for the type. -/
def identityTuple (g : EigenGateData) :
    List (ℚ × List (List ℚ)) × ExpVal × ℚ :=
  (g.components, canonicalExponent g, g.globalShift)

/-- Embeds `EigenGate.__eq__` between gates of the same kind: equality of
identity tuples. -/
def gateEq (g h : EigenGateData) : Bool :=
  decide (identityTuple g = identityTuple h)

/-- Embeds `EigenGate._is_parameterized_`: the exponent is a symbol. -/
def isParameterized (g : EigenGateData) : Bool :=
  match g.exponent with
  | .sym _ => true
  | .num _ => false

/-- Embeds `EigenGate._has_unitary_`. -/
def hasUnitary (g : EigenGateData) : Bool := !isParameterized g

/-- Embeds `EigenGate._unitary_`.  The source returns `NotImplemented`
(here `none`) for a symbolic exponent, and otherwise the matrix
`Σ_k component_k * i^(2 * e * (θ_k + global_shift))`.  The summands are kept
exactly, as `(power of i, projector)` pairs: the transcendental evaluation
`i^x` is the floating-point boundary, and gates with equal summand data have
equal float matrices. -/
def unitaryPhaseData (g : EigenGateData) :
    Option (List (ℚ × List (List ℚ))) :=
  match g.exponent with
  | .sym _ => none
  | .num e =>
    some (g.components.map (fun c => (2 * e * (c.1 + g.globalShift), c.2)))

/-- C9: a gate whose exponent is an unresolved symbolic parameter reports
"no unitary available" through the explicit `NotImplemented`-style marker
(`none`), and `_has_unitary_` answers `false`, so callers can probe the
capability without an exception. -/
theorem parameterized_gate_unitary_marker (g : EigenGateData)
    (h : isParameterized g = true) :
    unitaryPhaseData g = none ∧ hasUnitary g = false := by
  match hg : g.exponent with
  | .sym s => exact ⟨by simp [unitaryPhaseData, hg], by simp [hasUnitary, h]⟩
  | .num v => simp [isParameterized, hg] at h

/-- Closed witness for the C9 theorem: a gate parameterized by the symbol
`"t"`. -/
theorem parameterized_gate_unitary_marker_witness :
    unitaryPhaseData ⟨.sym "t", 0, [(0, [[1, 0], [0, 0]])]⟩ = none ∧
    hasUnitary ⟨.sym "t", 0, [(0, [[1, 0], [0, 0]])]⟩ = false :=
  parameterized_gate_unitary_marker _ rfl

/-! ### Circuit data model (`cirq.circuits.circuit`) -/

/-- Embeds `ops.Operation` together with the structural gate capabilities
the circuit code probes for (`ext.try_cast(ops.KnownMatrix, op)`,
`ext.try_cast(ops.CompositeOperation, op)`,
`ops.MeasurementGate.is_measurement(op)`): a gate bound to an ordered
qubit tuple, where the gate either exposes a matrix directly, decomposes
into sub-operations, is a measurement (with its key), or exposes neither a
matrix nor a decomposition.  Qubit ids are natural numbers.  Matrices are
row-major rational lists. -/
inductive Op where
  | known (qubits : List ℕ) (mat : List (List ℚ))
  | comp (qubits : List ℕ) (decomposition : List Op)
  | meas (qubits : List ℕ) (key : String)
  | unknown (qubits : List ℕ)

/-- The qubit tuple an operation acts on. -/
def Op.qubits : Op → List ℕ
  | known qs _ => qs
  | comp qs _ => qs
  | meas qs _ => qs
  | unknown qs => qs

/-- Modelled from the spec: `ops.MeasurementGate.is_measurement` (the
`cirq.ops` gate classes are not part of the sources here) — true exactly
for measurement operations. -/
def Op.isMeasurement : Op → Bool
  | meas _ _ => true
  | _ => false

/-- Modelled from the spec: a `Moment` holds the operations it was built
from, supports "qubits touched", `operates_on` and functional update
`with_operation` returning a new Moment. -/
structure Moment where
  operations : List Op

/-- The qubits touched by a moment's operations. -/
def Moment.qubits (m : Moment) : List ℕ :=
  m.operations.flatMap Op.qubits

/-- Modelled from the spec: `Moment.operates_on(qubits)` — does the moment
touch any of the given qubits. -/
def Moment.operatesOn (m : Moment) (qubits : List ℕ) : Bool :=
  qubits.any (fun q => m.qubits.contains q)

/-- Modelled from the spec: `Moment.with_operation` — functional update
adding one operation. -/
def Moment.withOperation (m : Moment) (op : Op) : Moment :=
  ⟨m.operations ++ [op]⟩

/-- Embeds the `Circuit` class: an ordered sequence of `Moment`s
(`self._moments`). -/
structure Circuit where
  moments : List Moment

/-- Embeds `Circuit._has_op_at`:
`0 <= moment_index < len(self._moments) and
self._moments[moment_index].operates_on(qubits)`.  The index is an `ℤ`
because callers pass `splitter_index - 1`, which can be `-1`. -/
def hasOpAt (ms : List Moment) (momentIndex : ℤ) (qubits : List ℕ) : Bool :=
  decide (0 ≤ momentIndex) && decide (momentIndex < (ms.length : ℤ)) &&
    (ms.getD momentIndex.toNat ⟨[]⟩).operatesOn qubits

/-- Embeds `Circuit._first_moment_operating_on`: the first index in the
given order at which `_has_op_at` holds. -/
def firstMomentOperatingOn (ms : List Moment) (qubits : List ℕ)
    (indices : List ℤ) : Option ℤ :=
  indices.find? (fun m => hasOpAt ms m qubits)

/-- Embeds `Circuit.next_moment_operating_on` at its default
`max_distance=None`, the only form the claims exercise: the distance is
`len(self._moments) - start_moment_index` and the scan runs over
`range(start, start + max_distance)` (empty when the distance is not
positive). -/
def nextMomentOperatingOn (ms : List Moment) (qubits : List ℕ)
    (startMomentIndex : ℤ) : Option ℤ :=
  let maxDistance : ℤ := (ms.length : ℤ) - startMomentIndex
  firstMomentOperatingOn ms qubits
    ((List.range maxDistance.toNat).map (fun (k : ℕ) => startMomentIndex + (k : ℤ)))

/-- Embeds `Circuit.prev_moment_operating_on` at its default
`max_distance=None`, the only form the claims exercise: the distance starts
at `len(self._moments)`, indices past the end are clipped off, and the scan
runs backward over `end_moment_index - k - 1` for `k < max_distance`. -/
def prevMomentOperatingOn (ms : List Moment) (qubits : List ℕ)
    (endMomentIndex : ℤ) : Option ℤ :=
  let len : ℤ := ms.length
  let d : ℤ := if endMomentIndex > len then endMomentIndex - len else 0
  let endIndex : ℤ := endMomentIndex - d
  let maxDistance : ℤ := len - d
  if maxDistance ≤ 0 then none
  else
    firstMomentOperatingOn ms qubits
      ((List.range maxDistance.toNat).map (fun (k : ℕ) => endIndex - 1 - (k : ℤ)))

/-- Embeds `circuits.insert_strategy.InsertStrategy` (modelled from the
spec; the enum module itself is not among the sources). -/
inductive InsertStrategy where
  | NEW
  | NEW_THEN_INLINE
  | INLINE
  | EARLIEST
  deriving DecidableEq, Repr

/-- Embeds Python `list.insert`, which clamps the index into range instead
of raising (negative indices count from the end). -/
def pyListInsert {α : Type} (xs : List α) (i : ℤ) (x : α) : List α :=
  let n : ℤ := xs.length
  let j : ℤ := if i < 0 then max (i + n) 0 else min i n
  xs.take j.toNat ++ x :: xs.drop j.toNat

/-- The `NEW` / `NEW_THEN_INLINE` branch of
`Circuit._pick_or_create_inserted_op_moment_index`: splice a fresh empty
moment at the insertion point
(`self._moments.insert(splitter_index, Moment())`) and choose it. -/
def pickNew (ms : List Moment) (splitterIndex : ℤ) : List Moment × ℤ :=
  (pyListInsert ms splitterIndex ⟨[]⟩, splitterIndex)

/-- The `INLINE` branch of
`Circuit._pick_or_create_inserted_op_moment_index`: prefer the moment just
before the insertion point when it is in range and free of the operation's
qubits, else recurse into the `NEW` branch. -/
def pickInline (ms : List Moment) (splitterIndex : ℤ) (op : Op) :
    List Moment × ℤ :=
  if !hasOpAt ms (splitterIndex - 1) op.qubits &&
      decide (0 ≤ splitterIndex - 1) &&
      decide (splitterIndex - 1 < (ms.length : ℤ)) then
    (ms, splitterIndex - 1)
  else
    pickNew ms splitterIndex

/-- The `EARLIEST` branch of
`Circuit._pick_or_create_inserted_op_moment_index`: when the moment at the
insertion point is free of the operation's qubits, choose the index after
the last earlier moment operating on them (or 0); otherwise recurse into
the `INLINE` branch. -/
def pickEarliest (ms : List Moment) (splitterIndex : ℤ) (op : Op) :
    List Moment × ℤ :=
  if !hasOpAt ms splitterIndex op.qubits then
    match prevMomentOperatingOn ms op.qubits splitterIndex with
    | some p => (ms, p + 1)
    | none => (ms, 0)
  else
    pickInline ms splitterIndex op

/-- Embeds `Circuit._pick_or_create_inserted_op_moment_index`, dispatching
on the strategy; its self-recursion (`EARLIEST → INLINE → NEW`) is laid out
as the branch cascade above.  Returns the (possibly extended) moment list
together with the chosen moment index. -/
def pickOrCreate (ms : List Moment) (splitterIndex : ℤ) (op : Op) :
    InsertStrategy → List Moment × ℤ
  | .NEW => pickNew ms splitterIndex
  | .NEW_THEN_INLINE => pickNew ms splitterIndex
  | .INLINE => pickInline ms splitterIndex op
  | .EARLIEST => pickEarliest ms splitterIndex op

/-- Embeds the `while p >= len(self._moments): self._moments.append(Moment())`
padding inside `Circuit.insert`. -/
def padMoments (ms : List Moment) (p : ℤ) : List Moment :=
  ms ++ List.replicate ((p + 1 - (ms.length : ℤ)).toNat) ⟨[]⟩

/-- One iteration of the loop in `Circuit.insert`: pick/create the target
moment, pad, place the operation there, advance the insertion point, and
downgrade `NEW_THEN_INLINE` to `INLINE`. -/
def insertOpsStep (st : List Moment × ℤ × InsertStrategy) (op : Op) :
    List Moment × ℤ × InsertStrategy :=
  let ms := st.1
  let k := st.2.1
  let strat := st.2.2
  let picked := pickOrCreate ms k op strat
  let ms1 := picked.1
  let p := picked.2
  let ms2 := padMoments ms1 p
  let ms3 := ms2.set p.toNat ((ms2.getD p.toNat ⟨[]⟩).withOperation op)
  (ms3, max k (p + 1), if strat = .NEW_THEN_INLINE then .INLINE else strat)

/-- Embeds `Circuit.insert`.  A `Moment` argument is spliced directly with
`list.insert` (the source does this before any index validation); an
operation-tree argument is modelled by its flattened operation list
(`ops.flatten_op_tree` is modelled from the spec: "a nested structure
flattened into a linear operation sequence"), validated against
`0 <= index <= len(self._moments)` and placed one operation at a time.
Returns the new circuit and the returned insertion index. -/
def Circuit.insert (c : Circuit) (index : ℤ)
    (momentOrOperations : Moment ⊕ List Op) (strategy : InsertStrategy) :
    Except PyErr (Circuit × ℤ) :=
  match momentOrOperations with
  | .inl m => .ok (⟨pyListInsert c.moments index m⟩, index + 1)
  | .inr operations =>
    if !(decide (0 ≤ index) && decide (index ≤ (c.moments.length : ℤ))) then
      .error .indexError
    else
      let st := operations.foldl insertOpsStep (c.moments, index, strategy)
      .ok (⟨st.1⟩, st.2.1)

/-- Embeds `Circuit.__add__`: a new circuit over the concatenated moment
lists (Python list `+` copies; neither operand is mutated). -/
def Circuit.add (c1 c2 : Circuit) : Circuit :=
  ⟨c1.moments ++ c2.moments⟩

/-- Embeds Python list `*`: `max(k, 0)` concatenated copies. -/
def pyListMul {α : Type} (xs : List α) (k : ℤ) : List α :=
  (List.replicate k.toNat xs).flatten

/-- Embeds `Circuit.__mul__`: a new circuit over the repeated moment list
(Python list `*` copies; the operand is not mutated). -/
def Circuit.mul (c : Circuit) (repetitions : ℤ) : Circuit :=
  ⟨pyListMul c.moments repetitions⟩

/-- Embeds `Circuit.findall_operations`: `(index, op)` pairs in moment-major
order, keeping each moment's constructor order. -/
def findallOperations (c : Circuit) (predicate : Op → Bool) :
    List (ℕ × Op) :=
  c.moments.enum.flatMap
    (fun im => (im.2.operations.filter predicate).map (fun op => (im.1, op)))

/-- Embeds `Circuit.are_all_measurements_terminal`: every measurement
operation found at moment `i` has no moment operating on its qubits from
index `i + 1` on. -/
def areAllMeasurementsTerminal (c : Circuit) : Bool :=
  (findallOperations c Op.isMeasurement).all
    (fun iop =>
      (nextMomentOperatingOn c.moments iop.2.qubits ((iop.1 : ℤ) + 1)).isNone)

/-- C1 (code bug): `Circuit.insert` handles a `Moment` argument *before*
validating the index, and Python's `list.insert` clamps out-of-range
indices, so inserting a `Moment` at index 5 into an empty circuit raises
nothing: it appends the moment and returns 6, silently clamping — while
the same out-of-range index with an operation-tree argument does raise
`IndexError`.  This contradicts the claim (and the method's own
docstring). -/
theorem insert_moment_branch_clamps :
    Circuit.insert ⟨[]⟩ 5 (Sum.inl ⟨[]⟩) .NEW_THEN_INLINE =
      .ok (⟨[⟨[]⟩]⟩, 6) ∧
    Circuit.insert ⟨[]⟩ 5 (Sum.inr [Op.unknown [0]]) .NEW_THEN_INLINE =
      .error .indexError :=
  ⟨rfl, rfl⟩

/-- Auxiliary: an element of `n` concatenated copies of `xs`, below the
total length, is the element of `xs` at the index reduced mod `xs.length`. -/
theorem flatten_replicate_getElem {α : Type} (xs : List α) (n i : ℕ)
    (h : i < n * xs.length) :
    (List.replicate n xs).flatten[i]? = xs[i % xs.length]? := by
  induction n generalizing i with
  | zero => simp at h
  | succ n ih =>
    have hsm : (n + 1) * xs.length = n * xs.length + xs.length :=
      Nat.succ_mul n xs.length
    rw [List.replicate_succ, List.flatten_cons, List.getElem?_append]
    by_cases hi : i < xs.length
    · rw [if_pos hi, Nat.mod_eq_of_lt hi]
    · push_neg at hi
      rw [if_neg (by omega), ih (i - xs.length) (by omega)]
      congr 1
      conv_rhs => rw [Nat.mod_eq_sub_mod hi]

/-- C7: `circuit1 + circuit2` is a new circuit whose moment sequence is the
moments of `circuit1` followed by the moments of `circuit2`, and
`circuit * k` is a new circuit repeating the full moment sequence `k` times
(elementwise: position `i` holds moment `i mod len` for `i` below
`k * len`, and nothing beyond).  For a negative `k`, Python list `*`
yields the empty repetition, reflected by `Int.toNat`.  Both operations
build fresh lists (`self._moments + other._moments`, `self._moments * k`),
mutating neither operand; the embedding is correspondingly pure. -/
theorem circuit_add_mul_spec (c1 c2 c : Circuit) (k : ℤ) :
    (Circuit.add c1 c2).moments.length =
        c1.moments.length + c2.moments.length ∧
    (∀ i : ℕ, (Circuit.add c1 c2).moments[i]? =
        if i < c1.moments.length then c1.moments[i]?
        else c2.moments[i - c1.moments.length]?) ∧
    (Circuit.mul c k).moments.length = k.toNat * c.moments.length ∧
    (∀ i : ℕ, (Circuit.mul c k).moments[i]? =
        if i < k.toNat * c.moments.length then
          c.moments[i % c.moments.length]?
        else none) := by
  have hmul : (Circuit.mul c k).moments.length =
      k.toNat * c.moments.length := by
    simp [Circuit.mul, pyListMul, Nat.mul_comm]
  refine ⟨by simp [Circuit.add], ?_, hmul, ?_⟩
  · intro i
    have hrw : (Circuit.add c1 c2).moments = c1.moments ++ c2.moments := rfl
    rw [hrw, List.getElem?_append]
  · intro i
    by_cases h : i < k.toNat * c.moments.length
    · rw [if_pos h]
      exact flatten_replicate_getElem c.moments k.toNat i h
    · rw [if_neg h]
      refine List.getElem?_eq_none ?_
      omega

/-- Auxiliary: `_has_op_at` at an in-range natural index is just the
moment's `operates_on`. -/
theorem hasOpAt_natCast (ms : List Moment) (j : ℕ) (qs : List ℕ)
    (h : j < ms.length) :
    hasOpAt ms (j : ℤ) qs = (ms.getD j ⟨[]⟩).operatesOn qs := by
  simp [hasOpAt, h]

/-- Auxiliary: `next_moment_operating_on(qubits, start)` (default
`max_distance`) finds nothing iff no moment from `start` onward operates on
the qubits. -/
theorem nextMomentOperatingOn_eq_none_iff (ms : List Moment) (qs : List ℕ)
    (s : ℕ) :
    nextMomentOperatingOn ms qs (s : ℤ) = none ↔
      ∀ j : ℕ, s ≤ j → j < ms.length →
        (ms.getD j ⟨[]⟩).operatesOn qs = false := by
  unfold nextMomentOperatingOn firstMomentOperatingOn
  rw [List.find?_eq_none]
  constructor
  · intro H j hj1 hj2
    have hex : ∃ k, k ∈ List.range ((ms.length : ℤ) - (s : ℤ)).toNat ∧
        (s : ℤ) + (k : ℤ) = (j : ℤ) := by
      refine ⟨j - s, List.mem_range.mpr (by omega), by omega⟩
    obtain ⟨k, hk, hkj⟩ := hex
    have hmem : (j : ℤ) ∈
        (List.range ((ms.length : ℤ) - (s : ℤ)).toNat).map
          (fun (k : ℕ) => (s : ℤ) + (k : ℤ)) := by
      rw [List.mem_map]
      exact ⟨k, hk, hkj⟩
    have hnp := H _ hmem
    rw [hasOpAt_natCast ms j qs hj2] at hnp
    simpa using hnp
  · intro H x hx
    simp only [List.mem_map, List.mem_range] at hx
    obtain ⟨k, hk, rfl⟩ := hx
    have hsk : ((s : ℤ) + (k : ℤ)) = ((s + k : ℕ) : ℤ) := by push_cast; ring
    have hlt : s + k < ms.length := by omega
    rw [hsk, hasOpAt_natCast ms (s + k) qs hlt, H (s + k) (by omega) hlt]
    simp

/-- Auxiliary: membership in `findall_operations`: `(i, op)` is produced
iff moment `i` exists, contains `op`, and the predicate holds of `op`. -/
theorem findallOperations_mem (c : Circuit) (pred : Op → Bool) (i : ℕ)
    (op : Op) :
    (i, op) ∈ findallOperations c pred ↔
      ∃ m, c.moments[i]? = some m ∧ op ∈ m.operations ∧ pred op = true := by
  unfold findallOperations
  rw [List.mem_flatMap]
  constructor
  · rintro ⟨⟨i', m⟩, hmem, hin⟩
    obtain ⟨op', hop', heq⟩ := List.mem_map.mp hin
    obtain ⟨hopin, hpred⟩ := List.mem_filter.mp hop'
    simp only [Prod.mk.injEq] at heq
    obtain ⟨rfl, rfl⟩ := heq
    exact ⟨m, List.mk_mem_enum_iff_getElem?.mp hmem, hopin, hpred⟩
  · rintro ⟨m, hm, hopin, hpred⟩
    refine ⟨(i, m), List.mk_mem_enum_iff_getElem?.mpr hm, ?_⟩
    exact List.mem_map.mpr ⟨op, List.mem_filter.mpr ⟨hopin, hpred⟩, rfl⟩

/-- C5: `are_all_measurements_terminal()` is true iff for every measurement
operation in the circuit, no later moment operates on any of that
operation's qubits. -/
theorem areAllMeasurementsTerminal_iff (c : Circuit) :
    areAllMeasurementsTerminal c = true ↔
      ∀ i : ℕ, ∀ m, c.moments[i]? = some m →
        ∀ op ∈ m.operations, Op.isMeasurement op = true →
          ∀ j : ℕ, i < j → j < c.moments.length →
            (c.moments.getD j ⟨[]⟩).operatesOn op.qubits = false := by
  unfold areAllMeasurementsTerminal
  rw [List.all_eq_true]
  constructor
  · intro H i m hm op hopin hmeas j hij hjlen
    have hmem := (findallOperations_mem c Op.isMeasurement i op).mpr
      ⟨m, hm, hopin, hmeas⟩
    have hnone := H _ hmem
    rw [Option.isNone_iff_eq_none] at hnone
    have : ((i : ℤ) + 1) = ((i + 1 : ℕ) : ℤ) := by push_cast; ring
    rw [this] at hnone
    exact (nextMomentOperatingOn_eq_none_iff c.moments op.qubits (i + 1)).mp
      hnone j (by omega) hjlen
  · intro H x hx
    obtain ⟨m, hm, hopin, hmeas⟩ :=
      (findallOperations_mem c Op.isMeasurement x.1 x.2).mp (by
        cases x; exact hx)
    rw [Option.isNone_iff_eq_none]
    have : ((x.1 : ℤ) + 1) = ((x.1 + 1 : ℕ) : ℤ) := by push_cast; ring
    rw [this]
    exact (nextMomentOperatingOn_eq_none_iff c.moments x.2.qubits
      (x.1 + 1)).mpr (fun j hj1 hj2 =>
        H x.1 m hm x.2 hopin hmeas j (by omega) hj2)

/-- Auxiliary: `_has_op_at` only answers true inside the moment range. -/
theorem hasOpAt_bounds (ms : List Moment) (j : ℤ) (qs : List ℕ)
    (h : hasOpAt ms j qs = true) : 0 ≤ j ∧ j < (ms.length : ℤ) := by
  unfold hasOpAt at h
  simp only [Bool.and_eq_true, decide_eq_true_eq] at h
  exact ⟨h.1.1, h.1.2⟩

/-- Auxiliary: `find?` over the descending index run
`e-1, e-2, ..., e-n` returns `p` iff `p` satisfies the predicate, lies in
the run, and nothing strictly between `p` and `e` does. -/
theorem find?_descRange (f : ℤ → Bool) (e : ℤ) (n : ℕ) (p : ℤ) :
    ((List.range n).map (fun (k : ℕ) => e - 1 - (k : ℤ))).find? f = some p ↔
      (f p = true ∧ e - (n : ℤ) ≤ p ∧ p < e ∧
        ∀ j : ℤ, p < j → j < e → f j = false) := by
  induction n generalizing e with
  | zero =>
    simp only [List.range_zero, List.map_nil, List.find?_nil]
    constructor
    · intro h
      cases h
    · rintro ⟨-, h1, h2, -⟩
      omega
  | succ n ih =>
    have hexp : (List.range (n + 1)).map (fun (k : ℕ) => e - 1 - (k : ℤ)) =
        (e - 1) ::
          ((List.range n).map (fun (k : ℕ) => (e - 1) - 1 - (k : ℤ))) := by
      rw [List.range_succ_eq_map, List.map_cons, List.map_map]
      congr 1
      · norm_num
      · refine List.map_congr_left (fun a ha => ?_)
        simp only [Function.comp_apply]
        push_cast
        ring
    rw [hexp]
    cases hfa : f (e - 1) with
    | false =>
      rw [List.find?_cons_of_neg _ (by simp [hfa]), ih (e - 1)]
      constructor
      · rintro ⟨h1, h2, h3, h4⟩
        refine ⟨h1, by push_cast; omega, by omega, ?_⟩
        intro j hj1 hj2
        by_cases hje : j = e - 1
        · rw [hje]
          exact hfa
        · exact h4 j hj1 (by omega)
      · rintro ⟨h1, h2, h3, h4⟩
        have hpe : p ≠ e - 1 := by
          intro hq
          rw [hq, hfa] at h1
          cases h1
        refine ⟨h1, by push_cast at h2 ⊢; omega, by omega,
          fun j hj1 hj2 => h4 j hj1 (by omega)⟩
    | true =>
      rw [List.find?_cons_of_pos _ (by simp [hfa])]
      constructor
      · intro h
        have hp : p = e - 1 := by
          injection h with h'
          omega
        subst hp
        exact ⟨hfa, by push_cast; omega, by omega, fun j hj1 hj2 => by omega⟩
      · rintro ⟨h1, h2, h3, h4⟩
        have hp : p = e - 1 := by
          by_contra hne
          have := h4 (e - 1) (by omega) (by omega)
          rw [hfa] at this
          cases this
        rw [hp]

/-- Auxiliary: for an end index not past the end of the circuit,
`prev_moment_operating_on` (default `max_distance`) is the backward scan
over the whole moment range. -/
theorem prevMomentOperatingOn_of_le (ms : List Moment) (qs : List ℕ)
    (e : ℤ) (he : e ≤ (ms.length : ℤ)) :
    prevMomentOperatingOn ms qs e =
      firstMomentOperatingOn ms qs
        ((List.range ms.length).map (fun (k : ℕ) => e - 1 - (k : ℤ))) := by
  unfold prevMomentOperatingOn
  have h1 : ¬ ((ms.length : ℤ) < e) := by omega
  simp only [gt_iff_lt, h1, if_false, sub_zero, Int.toNat_natCast]
  by_cases h0 : (ms.length : ℤ) ≤ 0
  · rw [if_pos h0]
    have hz : ms.length = 0 := by omega
    simp [hz, firstMomentOperatingOn]
  · rw [if_neg h0]

/-- Auxiliary: full characterization of a successful backward scan: the
found index satisfies `_has_op_at`, lies before the end index, and every
index strictly between fails `_has_op_at`. -/
theorem prevMomentOperatingOn_eq_some_iff (ms : List Moment) (qs : List ℕ)
    (e p : ℤ) (helen : e ≤ (ms.length : ℤ)) :
    prevMomentOperatingOn ms qs e = some p ↔
      (hasOpAt ms p qs = true ∧ p < e ∧
        ∀ j : ℤ, p < j → j < e → hasOpAt ms j qs = false) := by
  rw [prevMomentOperatingOn_of_le ms qs e helen]
  unfold firstMomentOperatingOn
  rw [find?_descRange]
  constructor
  · rintro ⟨h1, h2, h3, h4⟩
    exact ⟨h1, h3, h4⟩
  · rintro ⟨h1, h2, h3⟩
    have hb := hasOpAt_bounds ms p qs h1
    exact ⟨h1, by omega, h2, h3⟩

/-- Auxiliary: a failed backward scan means no index before the end index
satisfies `_has_op_at`. -/
theorem prevMomentOperatingOn_eq_none_iff (ms : List Moment) (qs : List ℕ)
    (e : ℤ) (helen : e ≤ (ms.length : ℤ)) :
    prevMomentOperatingOn ms qs e = none ↔
      ∀ j : ℤ, 0 ≤ j → j < e → hasOpAt ms j qs = false := by
  rw [prevMomentOperatingOn_of_le ms qs e helen]
  unfold firstMomentOperatingOn
  rw [List.find?_eq_none]
  constructor
  · intro H j hj0 hje
    have hmem : j ∈
        (List.range ms.length).map (fun (k : ℕ) => e - 1 - (k : ℤ)) := by
      rw [List.mem_map]
      exact ⟨(e - 1 - j).toNat, List.mem_range.mpr (by omega), by omega⟩
    simpa using H _ hmem
  · intro H x hx
    simp only [List.mem_map, List.mem_range] at hx
    obtain ⟨k, hk, rfl⟩ := hx
    by_cases h0 : 0 ≤ e - 1 - (k : ℤ)
    · rw [H _ h0 (by omega)]
      simp
    · intro hcon
      have := hasOpAt_bounds ms _ qs (by simpa using hcon)
      omega

/-- Auxiliary: the moment spliced in by `list.insert` at an in-range index
sits at that index. -/
theorem pyListInsert_getD_self (ms : List Moment) (k : ℤ) (x : Moment)
    (hk0 : 0 ≤ k) (hklen : k ≤ (ms.length : ℤ)) :
    (pyListInsert ms k x).getD k.toNat ⟨[]⟩ = x := by
  simp only [pyListInsert]
  rw [if_neg (by omega)]
  have hmin : k ⊓ (ms.length : ℤ) = k := by omega
  rw [hmin]
  have hlen : (ms.take k.toNat).length = k.toNat := by
    rw [List.length_take]
    omega
  rw [List.getD_eq_getElem?_getD, List.getElem?_append, if_neg (by omega),
    hlen]
  simp

/-- Auxiliary: `list.insert` grows the list by one. -/
theorem pyListInsert_length (ms : List Moment) (k : ℤ) (x : Moment) :
    (pyListInsert ms k x).length = ms.length + 1 := by
  simp only [pyListInsert]
  by_cases hneg : k < 0
  · rw [if_pos hneg]
    simp only [List.length_append, List.length_take, List.length_cons,
      List.length_drop]
    omega
  · rw [if_neg hneg]
    simp only [List.length_append, List.length_take, List.length_cons,
      List.length_drop]
    omega

/-- Auxiliary: an empty moment operates on no qubits. -/
theorem emptyMoment_operatesOn (qs : List ℕ) :
    Moment.operatesOn ⟨[]⟩ qs = false := by
  simp [Moment.operatesOn, Moment.qubits]

/-- Auxiliary: `_has_op_at` is false at the position of the freshly spliced
empty moment. -/
theorem hasOpAt_pyListInsert_self (ms : List Moment) (k : ℤ) (qs : List ℕ)
    (hk0 : 0 ≤ k) (hklen : k ≤ (ms.length : ℤ)) :
    hasOpAt (pyListInsert ms k ⟨[]⟩) k qs = false := by
  unfold hasOpAt
  rw [pyListInsert_getD_self ms k ⟨[]⟩ hk0 hklen, emptyMoment_operatesOn]
  simp

/-- Auxiliary: after one `Circuit.insert` loop iteration the operation is a
member of the chosen moment of the updated moment list. -/
theorem insertOpsStep_mem (ms : List Moment) (k : ℤ)
    (strat : InsertStrategy) (op : Op)
    (hp0 : 0 ≤ (pickOrCreate ms k op strat).2) :
    op ∈ (((insertOpsStep (ms, k, strat) op).1).getD
      (pickOrCreate ms k op strat).2.toNat ⟨[]⟩).operations := by
  simp only [insertOpsStep]
  have hlen2 : (pickOrCreate ms k op strat).2.toNat <
      (padMoments (pickOrCreate ms k op strat).1
        (pickOrCreate ms k op strat).2).length := by
    unfold padMoments
    simp only [List.length_append, List.length_replicate]
    omega
  rw [List.getD_eq_getElem?_getD, List.getElem?_set_self hlen2]
  simp [Moment.withOperation]

/-- C2 (amended): `Circuit.insert` with strategy `EARLIEST`, at a valid
insertion index, places the operation at a moment index `p ≥ 0` whose
moment (in the possibly extended moment list) holds no existing operation
on any of the operation's qubits.  When the moment at the insertion point
does not touch the operation's qubits, `p` is the index just after the
latest moment strictly before the insertion point that touches one of
those qubits, or `0` when no such moment exists; otherwise the strategy
falls back to `INLINE`: the moment just before the insertion point when it
is in range and does not touch those qubits, else a fresh empty moment
spliced in at the insertion point.  The final conjunct checks that
`Circuit.insert` itself succeeds and stores the operation in that
moment. -/
theorem insert_earliest_spec (ms : List Moment) (k : ℤ) (op : Op)
    (hk0 : 0 ≤ k) (hklen : k ≤ (ms.length : ℤ)) :
    0 ≤ (pickOrCreate ms k op .EARLIEST).2 ∧
    hasOpAt (pickOrCreate ms k op .EARLIEST).1
      (pickOrCreate ms k op .EARLIEST).2 op.qubits = false ∧
    (if hasOpAt ms k op.qubits = false then
      ((∃ m : ℤ, hasOpAt ms m op.qubits = true ∧ m < k ∧
          (∀ j : ℤ, m < j → j < k → hasOpAt ms j op.qubits = false) ∧
          (pickOrCreate ms k op .EARLIEST).2 = m + 1) ∨
        ((∀ j : ℤ, 0 ≤ j → j < k → hasOpAt ms j op.qubits = false) ∧
          (pickOrCreate ms k op .EARLIEST).2 = 0))
    else
      (if hasOpAt ms (k - 1) op.qubits = false ∧ 0 ≤ k - 1 then
        (pickOrCreate ms k op .EARLIEST).2 = k - 1 ∧
          (pickOrCreate ms k op .EARLIEST).1 = ms
      else
        (pickOrCreate ms k op .EARLIEST).2 = k ∧
          (pickOrCreate ms k op .EARLIEST).1 = pyListInsert ms k ⟨[]⟩)) ∧
    (∃ c' r, Circuit.insert ⟨ms⟩ k (Sum.inr [op]) .EARLIEST = .ok (c', r) ∧
      op ∈ (c'.moments.getD (pickOrCreate ms k op .EARLIEST).2.toNat
        ⟨[]⟩).operations) := by
  have hEq : pickOrCreate ms k op .EARLIEST = pickEarliest ms k op := rfl
  rw [hEq]
  have habc : 0 ≤ (pickEarliest ms k op).2 ∧
      hasOpAt (pickEarliest ms k op).1 (pickEarliest ms k op).2
        op.qubits = false ∧
      (if hasOpAt ms k op.qubits = false then
        ((∃ m : ℤ, hasOpAt ms m op.qubits = true ∧ m < k ∧
            (∀ j : ℤ, m < j → j < k → hasOpAt ms j op.qubits = false) ∧
            (pickEarliest ms k op).2 = m + 1) ∨
          ((∀ j : ℤ, 0 ≤ j → j < k → hasOpAt ms j op.qubits = false) ∧
            (pickEarliest ms k op).2 = 0))
      else
        (if hasOpAt ms (k - 1) op.qubits = false ∧ 0 ≤ k - 1 then
          (pickEarliest ms k op).2 = k - 1 ∧ (pickEarliest ms k op).1 = ms
        else
          (pickEarliest ms k op).2 = k ∧
            (pickEarliest ms k op).1 = pyListInsert ms k ⟨[]⟩)) := by
    by_cases hA : hasOpAt ms k op.qubits = false
    · cases hprev : prevMomentOperatingOn ms op.qubits k with
      | none =>
        have hchar :=
          (prevMomentOperatingOn_eq_none_iff ms op.qubits k hklen).mp hprev
        have hpick : pickEarliest ms k op = (ms, 0) := by
          simp [pickEarliest, hA, hprev]
        rw [hpick]
        refine ⟨le_refl 0, ?_, ?_⟩
        · by_cases h0 : 0 < k
          · exact hchar 0 le_rfl h0
          · have hk00 : (0 : ℤ) = k := by omega
            exact hk00 ▸ hA
        · rw [if_pos hA]
          exact Or.inr ⟨hchar, rfl⟩
      | some p =>
        obtain ⟨hc1, hc2, hc3⟩ :=
          (prevMomentOperatingOn_eq_some_iff ms op.qubits k p hklen).mp hprev
        have hpick : pickEarliest ms k op = (ms, p + 1) := by
          simp [pickEarliest, hA, hprev]
        have hp0 := (hasOpAt_bounds ms p op.qubits hc1).1
        rw [hpick]
        refine ⟨by omega, ?_, ?_⟩
        · by_cases hpe : p + 1 < k
          · exact hc3 (p + 1) (by omega) hpe
          · have hpk : p + 1 = k := by omega
            exact hpk ▸ hA
        · rw [if_pos hA]
          exact Or.inl ⟨p, hc1, hc2, hc3, rfl⟩
    · have hA' : hasOpAt ms k op.qubits = true := by
        simpa using hA
      by_cases hI : hasOpAt ms (k - 1) op.qubits = false ∧ 0 ≤ k - 1
      · have hcond : (!hasOpAt ms (k - 1) op.qubits &&
            decide (0 ≤ k - 1) && decide (k - 1 < (ms.length : ℤ))) = true := by
          rw [hI.1]
          simp only [Bool.not_false, Bool.true_and, Bool.and_eq_true,
            decide_eq_true_eq]
          exact ⟨hI.2, by omega⟩
        have hpick : pickEarliest ms k op = (ms, k - 1) := by
          unfold pickEarliest
          rw [hA']
          simp only [Bool.not_true, Bool.false_eq_true, if_false]
          unfold pickInline
          rw [hcond]
          simp
        rw [hpick]
        refine ⟨hI.2, hI.1, ?_⟩
        rw [if_neg (by simp [hA']), if_pos hI]
        exact ⟨rfl, rfl⟩
      · have hcond : (!hasOpAt ms (k - 1) op.qubits &&
            decide (0 ≤ k - 1) && decide (k - 1 < (ms.length : ℤ))) = false := by
          by_cases hb : hasOpAt ms (k - 1) op.qubits = true
          · rw [hb]
            simp only [Bool.not_true, Bool.false_and]
          · have hbf : hasOpAt ms (k - 1) op.qubits = false := by simpa using hb
            have hk1 : ¬ (0 ≤ k - 1) := fun hcon => hI ⟨hbf, hcon⟩
            have hd1 : decide (0 ≤ k - 1) = false := decide_eq_false hk1
            rw [hbf, hd1]
            simp only [Bool.not_false, Bool.true_and, Bool.false_and]
        have hpick : pickEarliest ms k op = (pyListInsert ms k ⟨[]⟩, k) := by
          unfold pickEarliest
          rw [hA']
          simp only [Bool.not_true, Bool.false_eq_true, if_false]
          unfold pickInline
          rw [hcond]
          simp only [Bool.false_eq_true, if_false]
          rfl
        rw [hpick]
        refine ⟨hk0, hasOpAt_pyListInsert_self ms k op.qubits hk0 hklen, ?_⟩
        rw [if_neg (by simp [hA']), if_neg hI]
        exact ⟨rfl, rfl⟩
  refine ⟨habc.1, habc.2.1, habc.2.2, ?_⟩
  have hval : (!(decide (0 ≤ k) &&
      decide (k ≤ ((Circuit.mk ms).moments.length : ℤ)))) = false := by
    simp [hk0, hklen]
  refine ⟨⟨(insertOpsStep (ms, k, .EARLIEST) op).1⟩,
    (insertOpsStep (ms, k, .EARLIEST) op).2.1, ?_, ?_⟩
  · simp only [Circuit.insert, hval, Bool.false_eq_true, if_false,
      List.foldl_cons, List.foldl_nil]
  · exact insertOpsStep_mem ms k .EARLIEST op habc.1

/-- C2 counterexample to the claim as stated: in the circuit
`[Moment(), Moment(), Moment([gate(q0)])]`, inserting an operation on
qubit 0 at index 2 with `EARLIEST` picks moment index 1.  The moment at the
insertion point (index 2) touches qubit 0 and no earlier moment does, so
the claim's formula — the index just after the latest moment at or before
the insertion point touching the qubits, or 0 when none — predicts 3
(counting the insertion point itself) or 0 (counting only strictly earlier
moments); the code produces 1 from the `INLINE` fallback. -/
theorem insert_earliest_claim_counterexample :
    pickOrCreate [⟨[]⟩, ⟨[]⟩, ⟨[Op.unknown [0]]⟩] 2 (Op.unknown [0])
        .EARLIEST = ([⟨[]⟩, ⟨[]⟩, ⟨[Op.unknown [0]]⟩], 1) ∧
    hasOpAt [⟨[]⟩, ⟨[]⟩, ⟨[Op.unknown [0]]⟩] 2 (Op.unknown [0]).qubits =
      true ∧
    hasOpAt [⟨[]⟩, ⟨[]⟩, ⟨[Op.unknown [0]]⟩] 0 (Op.unknown [0]).qubits =
      false ∧
    hasOpAt [⟨[]⟩, ⟨[]⟩, ⟨[Op.unknown [0]]⟩] 1 (Op.unknown [0]).qubits =
      false ∧
    (1 : ℤ) ≠ 2 + 1 ∧ (1 : ℤ) ≠ 0 :=
  ⟨rfl, by decide, by decide, by decide, by decide, by decide⟩

/-- Closed witness for the C2 theorem: inserting an operation on qubit 0 at
index 1 of a one-moment circuit already touching qubit 0. -/
theorem insert_earliest_spec_witness :
    0 ≤ (pickOrCreate [⟨[Op.unknown [0]]⟩] 1 (Op.unknown [0]) .EARLIEST).2 ∧
    hasOpAt (pickOrCreate [⟨[Op.unknown [0]]⟩] 1 (Op.unknown [0])
        .EARLIEST).1
      (pickOrCreate [⟨[Op.unknown [0]]⟩] 1 (Op.unknown [0]) .EARLIEST).2
      (Op.unknown [0]).qubits = false ∧
    (if hasOpAt [⟨[Op.unknown [0]]⟩] 1 (Op.unknown [0]).qubits = false then
      ((∃ m : ℤ, hasOpAt [⟨[Op.unknown [0]]⟩] m (Op.unknown [0]).qubits =
            true ∧ m < 1 ∧
          (∀ j : ℤ, m < j → j < 1 →
            hasOpAt [⟨[Op.unknown [0]]⟩] j (Op.unknown [0]).qubits = false) ∧
          (pickOrCreate [⟨[Op.unknown [0]]⟩] 1 (Op.unknown [0])
            .EARLIEST).2 = m + 1) ∨
        ((∀ j : ℤ, 0 ≤ j → j < 1 →
            hasOpAt [⟨[Op.unknown [0]]⟩] j (Op.unknown [0]).qubits = false) ∧
          (pickOrCreate [⟨[Op.unknown [0]]⟩] 1 (Op.unknown [0])
            .EARLIEST).2 = 0))
    else
      (if hasOpAt [⟨[Op.unknown [0]]⟩] (1 - 1) (Op.unknown [0]).qubits =
          false ∧ (0 : ℤ) ≤ 1 - 1 then
        (pickOrCreate [⟨[Op.unknown [0]]⟩] 1 (Op.unknown [0])
          .EARLIEST).2 = 1 - 1 ∧
          (pickOrCreate [⟨[Op.unknown [0]]⟩] 1 (Op.unknown [0])
            .EARLIEST).1 = [⟨[Op.unknown [0]]⟩]
      else
        (pickOrCreate [⟨[Op.unknown [0]]⟩] 1 (Op.unknown [0])
          .EARLIEST).2 = 1 ∧
          (pickOrCreate [⟨[Op.unknown [0]]⟩] 1 (Op.unknown [0])
            .EARLIEST).1 = pyListInsert [⟨[Op.unknown [0]]⟩] 1 ⟨[]⟩)) ∧
    (∃ c' r, Circuit.insert ⟨[⟨[Op.unknown [0]]⟩]⟩ 1 (Sum.inr
        [Op.unknown [0]]) .EARLIEST = .ok (c', r) ∧
      Op.unknown [0] ∈ (c'.moments.getD
        (pickOrCreate [⟨[Op.unknown [0]]⟩] 1 (Op.unknown [0])
          .EARLIEST).2.toNat ⟨[]⟩).operations) :=
  insert_earliest_spec [⟨[Op.unknown [0]]⟩] 1 (Op.unknown [0])
    (by decide) (by decide)

/-! ### Unitary extraction (`Circuit.to_unitary_matrix` and helpers) -/

/-- Embeds `_flatten_to_known_matrix_ops`: operations exposing a matrix
pass through, composite operations are recursively decomposed
(`default_decompose` is the stored decomposition in the `Op` model),
measurement gates pass through, and an operation with neither capability
raises a `TypeError`. -/
def flattenToKnownMatrixOps : List Op → Except PyErr (List Op)
  | [] => .ok []
  | .known qs m :: rest =>
    (fun l => Op.known qs m :: l) <$> flattenToKnownMatrixOps rest
  | .comp _ sub :: rest => do
    let a ← flattenToKnownMatrixOps sub
    let b ← flattenToKnownMatrixOps rest
    .ok (a ++ b)
  | .meas qs key :: rest =>
    (fun l => Op.meas qs key :: l) <$> flattenToKnownMatrixOps rest
  | .unknown _ :: _ => .error .typeError

/-- Embeds `_moved_bit`: `((val >> at) & 1) << to`. -/
def movedBit (val atPos toPos : ℕ) : ℕ :=
  ((val >>> atPos) &&& 1) <<< toPos

/-- Point update of a matrix-valued function, mirroring the numpy
element assignment `result[i, j] = v`. -/
def matAssign (m : ℕ → ℕ → ℚ) (i j : ℕ) (v : ℚ) : ℕ → ℕ → ℚ :=
  fun a b => if a = i ∧ b = j then v else m a b

/-- Entry access into a row-major rational matrix (`sub_mat[i, j]`). -/
def subMatEntry (subMat : List (List ℚ)) (i j : ℕ) : ℚ :=
  (subMat.getD i []).getD j 0

/-- Embeds `_operation_to_unitary_matrix`: an operation without a known
matrix raises a `TypeError`; otherwise the gate's sub-matrix is scattered
into the `2^n × 2^n` space.  `bit_locs` maps each operand qubit's global
bit to its local position (`qubit_map[q]` is the qubit's position in the
given qubit order — the source builds that dict from `enumerate`);
`over_mask` is the complement (`~`, `Int.lnot`) of the touched-bit mask,
and `over_i = i & over_mask` (`Int.land`) keeps the untouched bits. -/
def operationToUnitaryMatrix (op : Op) (qubitList : List ℕ) :
    Except PyErr (ℕ → ℕ → ℚ) :=
  match op with
  | .known opQubits subMat =>
    let qubitCount := qubitList.length
    let bitLocs : List ℕ :=
      (opQubits.map (fun q => qubitCount - qubitList.indexOf q - 1)).reverse
    let overMask : ℤ :=
      Int.lnot (((bitLocs.map (fun b => ((1 <<< b : ℕ) : ℤ))).sum))
    .ok ((List.range (1 <<< qubitCount)).foldl (fun acc i =>
      let subI := (bitLocs.enum.map (fun kb => movedBit i kb.2 kb.1)).sum
      let overI := (Int.land (i : ℤ) overMask).toNat
      (List.range (subMat.headD []).length).foldl (fun acc2 subJ =>
        let j := (bitLocs.enum.map (fun kb => movedBit subJ kb.1 kb.2)).sum
        matAssign acc2 i (overI ||| j) (subMatEntry subMat subI subJ)) acc)
      (fun _ _ => 0))
  | _ => .error .typeError

/-- Embeds `np.eye(n)` (as a total function on indices). -/
def npEye (i j : ℕ) : ℚ := if i = j then 1 else 0

/-- Matrix product at dimension `n` (`np.matmul` over the `2^n` space). -/
def matMulN (n : ℕ) (a b : ℕ → ℕ → ℚ) : ℕ → ℕ → ℚ :=
  fun i j => ((List.range n).map (fun t => a i t * b t j)).sum

/-- Embeds `_operations_to_unitary_matrix`: start from the identity; a
measurement raises a `TypeError` unless terminal measurements are ignored
(then it is skipped); every other operation's matrix is left-multiplied
onto the running product. -/
def operationsToUnitaryMatrix (opsList : List Op) (qubitList : List ℕ)
    (ignoreTerminalMeasurements : Bool) : Except PyErr (ℕ → ℕ → ℚ) :=
  opsList.foldlM (fun total op =>
    if Op.isMeasurement op then
      if !ignoreTerminalMeasurements then .error .typeError
      else .ok total
    else do
      let mat ← operationToUnitaryMatrix op qubitList
      .ok (matMulN (1 <<< qubitList.length) mat total))
    npEye

/-- Embeds `Circuit.to_unitary_matrix`.  The qubit order resolution
(`QubitOrder.as_qubit_order(...).order_for(...)`, not among the sources)
is modelled by passing the resolved qubit order directly; `qubit_map` maps
each qubit to its position in that order.  The source's flatten generator
is lazy, so its `TypeError`s surface while the product is consumed; the
eager embedding raises the same `TypeError` value.  A non-terminal
measurement raises a `TypeError` before any matrix work. -/
def toUnitaryMatrix (c : Circuit) (qubitList : List ℕ)
    (ignoreTerminalMeasurements : Bool) : Except PyErr (ℕ → ℕ → ℚ) :=
  if !areAllMeasurementsTerminal c then .error .typeError
  else do
    let matrixOps ← flattenToKnownMatrixOps
      (c.moments.flatMap Moment.operations)
    operationsToUnitaryMatrix matrixOps qubitList
      ignoreTerminalMeasurements

instance exceptDecEq {e a : Type} [DecidableEq e] [DecidableEq a] :
    DecidableEq (Except e a)
  | .ok x, .ok y =>
    if h : x = y then .isTrue (by rw [h])
    else .isFalse (by intro hc; cases hc; exact h rfl)
  | .ok _, .error _ => .isFalse (by intro hc; cases hc)
  | .error _, .ok _ => .isFalse (by intro hc; cases hc)
  | .error x, .error y =>
    if h : x = y then .isTrue (by rw [h])
    else .isFalse (by intro hc; cases hc; exact h rfl)

/-- C3: `to_unitary_matrix` on the single-CNOT circuit over qubits
`[control, target] = [0, 1]` (the control qubit first in the qubit order),
with the CNOT gate matrix from `CNotGate.matrix`, yields exactly the
canonical 4×4 CNOT matrix.  The computation over exact rationals is what
the float computation performs bit-for-bit here (all entries are 0 or 1),
so exact equality subsumes the claim's 1e-8 tolerance. -/
theorem cnot_circuit_unitary :
    (toUnitaryMatrix
        ⟨[⟨[Op.known [0, 1]
            [[1,0,0,0],[0,1,0,0],[0,0,0,1],[0,0,1,0]]]⟩]⟩
        [0, 1] true).map
      (fun M => (List.range 4).map (fun i =>
        (List.range 4).map (fun j => M i j))) =
    .ok [[1,0,0,0],[0,1,0,0],[0,0,0,1],[0,0,1,0]] := by
  with_unfolding_all decide

/-- A non-measurement operation that exposes neither a matrix nor a
decomposition into matrix-exposing sub-operations, at any depth of
decomposition: the spec-side failure condition of
`_flatten_to_known_matrix_ops`. -/
def containsUnknown : List Op → Bool
  | [] => false
  | .unknown _ :: _ => true
  | .comp _ sub :: rest => containsUnknown sub || containsUnknown rest
  | _ :: rest => containsUnknown rest

/-- An operation that flattening lets through: a direct matrix or a
measurement. -/
def isKnownOrMeas : Op → Bool
  | .known _ _ => true
  | .meas _ _ => true
  | _ => false

/-- Auxiliary: `_flatten_to_known_matrix_ops` raises `TypeError` exactly
when some operation transitively lacks both a matrix and a decomposition,
and otherwise yields only matrix-exposing or measurement operations. -/
theorem flattenToKnownMatrixOps_cases (l : List Op) :
    (containsUnknown l = true ∧
      flattenToKnownMatrixOps l = .error .typeError) ∨
    (containsUnknown l = false ∧ ∃ l',
      flattenToKnownMatrixOps l = .ok l' ∧
      ∀ op ∈ l', isKnownOrMeas op = true) := by
  induction l using flattenToKnownMatrixOps.induct with
  | case1 =>
    exact Or.inr ⟨by simp [containsUnknown], [],
      by simp [flattenToKnownMatrixOps], by simp⟩
  | case2 qs m rest ih =>
    rcases ih with ⟨hu, he⟩ | ⟨hu, l', hok, hall⟩
    · exact Or.inl ⟨by simpa [containsUnknown] using hu,
        by simp [flattenToKnownMatrixOps, he]⟩
    · refine Or.inr ⟨by simpa [containsUnknown] using hu,
        Op.known qs m :: l', by simp [flattenToKnownMatrixOps, hok], ?_⟩
      intro op hmem
      rcases List.mem_cons.mp hmem with rfl | hmem'
      · rfl
      · exact hall op hmem'
  | case3 qubits sub rest ihsub ihrest =>
    have hstep : flattenToKnownMatrixOps (Op.comp qubits sub :: rest) = (do
        let a ← flattenToKnownMatrixOps sub
        let b ← flattenToKnownMatrixOps rest
        Except.ok (a ++ b)) := by
      simp [flattenToKnownMatrixOps]
    rcases ihsub with ⟨hus, hes⟩ | ⟨hus, ls, hoks, halls⟩
    · refine Or.inl ⟨by simp [containsUnknown, hus], ?_⟩
      rw [hstep, hes]
      rfl
    · rcases ihrest with ⟨hur, her⟩ | ⟨hur, lr, hokr, hallr⟩
      · refine Or.inl ⟨by simp [containsUnknown, hur], ?_⟩
        rw [hstep, hoks, her]
        rfl
      · refine Or.inr ⟨by simp [containsUnknown, hus, hur],
          ls ++ lr, by rw [hstep, hoks, hokr]; rfl, ?_⟩
        intro op hmem
        rcases List.mem_append.mp hmem with hmem' | hmem'
        · exact halls op hmem'
        · exact hallr op hmem'
  | case4 qs key rest ih =>
    rcases ih with ⟨hu, he⟩ | ⟨hu, l', hok, hall⟩
    · exact Or.inl ⟨by simpa [containsUnknown] using hu,
        by simp [flattenToKnownMatrixOps, he]⟩
    · refine Or.inr ⟨by simpa [containsUnknown] using hu,
        Op.meas qs key :: l', by simp [flattenToKnownMatrixOps, hok], ?_⟩
      intro op hmem
      rcases List.mem_cons.mp hmem with rfl | hmem'
      · rfl
      · exact hall op hmem'
  | case5 qubits tail =>
    exact Or.inl ⟨by simp [containsUnknown], by simp [flattenToKnownMatrixOps]⟩

/-- Auxiliary: over matrix-exposing and measurement operations only,
`_operations_to_unitary_matrix` with terminal measurements ignored
succeeds. -/
theorem operationsToUnitaryMatrix_ok (l : List Op) (qs : List ℕ)
    (h : ∀ op ∈ l, isKnownOrMeas op = true) :
    ∃ M, operationsToUnitaryMatrix l qs true = .ok M := by
  unfold operationsToUnitaryMatrix
  have hgen : ∀ (l' : List Op), (∀ op ∈ l', isKnownOrMeas op = true) →
      ∀ acc : ℕ → ℕ → ℚ,
      ∃ M, List.foldlM (fun total op =>
        if Op.isMeasurement op then
          if !true then .error PyErr.typeError
          else .ok total
        else do
          let mat ← operationToUnitaryMatrix op qs
          .ok (matMulN (1 <<< qs.length) mat total)) acc l' = .ok M := by
    intro l'
    induction l' with
    | nil =>
      intro _ acc
      exact ⟨acc, rfl⟩
    | cons op rest ih =>
      intro h' acc
      have hop := h' op (List.mem_cons_self op rest)
      have hrest : ∀ o ∈ rest, isKnownOrMeas o = true :=
        fun o ho => h' o (List.mem_cons_of_mem op ho)
      cases op with
      | known qs0 m0 =>
        obtain ⟨M, hM⟩ := ih hrest
          (matMulN (1 <<< qs.length)
            ((operationToUnitaryMatrix (Op.known qs0 m0) qs).toOption.getD
              (fun _ _ => 0)) acc)
        refine ⟨M, ?_⟩
        simpa [List.foldlM_cons, Op.isMeasurement, operationToUnitaryMatrix,
          Except.toOption] using hM
      | meas qs0 key =>
        obtain ⟨M, hM⟩ := ih hrest acc
        refine ⟨M, ?_⟩
        simpa [List.foldlM_cons, Op.isMeasurement] using hM
      | comp a b =>
        simp [isKnownOrMeas] at hop
      | unknown a =>
        simp [isKnownOrMeas] at hop
  exact hgen l h npEye

/-- C4: error behaviour of `to_unitary_matrix`: a circuit with a
non-terminal measurement yields `TypeError` (for either setting of
`ignore_terminal_measurements`); a circuit containing a non-measurement
operation with neither a known matrix nor a decomposition into
matrix-exposing sub-operations yields `TypeError`; and when all
measurements are terminal, terminal measurements are ignored, and every
non-measurement operation exposes a matrix (directly or transitively),
the conversion succeeds. -/
theorem toUnitaryMatrix_error_spec (c : Circuit) (qs : List ℕ) :
    (areAllMeasurementsTerminal c = false →
      ∀ ig, toUnitaryMatrix c qs ig = .error .typeError) ∧
    (containsUnknown (c.moments.flatMap Moment.operations) = true →
      ∀ ig, toUnitaryMatrix c qs ig = .error .typeError) ∧
    (areAllMeasurementsTerminal c = true →
      containsUnknown (c.moments.flatMap Moment.operations) = false →
      ∃ M, toUnitaryMatrix c qs true = .ok M) := by
  refine ⟨?_, ?_, ?_⟩
  · intro hterm ig
    simp [toUnitaryMatrix, hterm]
  · intro hunk ig
    by_cases hterm : areAllMeasurementsTerminal c = true
    · rcases flattenToKnownMatrixOps_cases
        (c.moments.flatMap Moment.operations) with ⟨-, he⟩ | ⟨hu, -⟩
      · simp only [toUnitaryMatrix, hterm, Bool.not_true,
          Bool.false_eq_true, if_false, he]
        rfl
      · rw [hunk] at hu
        cases hu
    · have hterm' : areAllMeasurementsTerminal c = false := by
        simpa using hterm
      simp [toUnitaryMatrix, hterm']
  · intro hterm hunk
    rcases flattenToKnownMatrixOps_cases
      (c.moments.flatMap Moment.operations) with ⟨hu, -⟩ | ⟨-, l', hok, hall⟩
    · rw [hunk] at hu
      cases hu
    · obtain ⟨M, hM⟩ := operationsToUnitaryMatrix_ok l' qs hall
      refine ⟨M, ?_⟩
      simp only [toUnitaryMatrix, hterm, Bool.not_true,
        Bool.false_eq_true, if_false, hok]
      exact hM

/-- Closed witness for the C4 theorem: a circuit with a measurement
followed by a gate on the same qubit (non-terminal) errors; a circuit with
a matrix-less, decomposition-less operation errors; and a circuit of an
X-like gate followed by a terminal measurement converts successfully when
terminal measurements are ignored. -/
theorem toUnitaryMatrix_error_spec_witness :
    toUnitaryMatrix ⟨[⟨[Op.meas [0] "k"]⟩, ⟨[Op.known [0] [[0, 1], [1, 0]]]⟩]⟩
      [0] true = .error .typeError ∧
    toUnitaryMatrix ⟨[⟨[Op.unknown [0]]⟩]⟩ [0] false = .error .typeError ∧
    ∃ M, toUnitaryMatrix
      ⟨[⟨[Op.known [0] [[0, 1], [1, 0]]]⟩, ⟨[Op.meas [0] "m"]⟩]⟩
      [0] true = .ok M :=
  ⟨(toUnitaryMatrix_error_spec
      ⟨[⟨[Op.meas [0] "k"]⟩, ⟨[Op.known [0] [[0, 1], [1, 0]]]⟩]⟩ [0]).1
      (by decide) true,
   (toUnitaryMatrix_error_spec ⟨[⟨[Op.unknown [0]]⟩]⟩ [0]).2.1
      (by simp [containsUnknown]) false,
   (toUnitaryMatrix_error_spec
      ⟨[⟨[Op.known [0] [[0, 1], [1, 0]]]⟩, ⟨[Op.meas [0] "m"]⟩]⟩ [0]).2.2
      (by decide) (by simp [containsUnknown])⟩
